import Mathlib

set_option maxRecDepth 8192

/-!
Shallow embedding of the wordcount crate (src/lib.rs).

The crate exposes a single function
  `count(input: impl BufRead, option: CountOption) -> HashMap<String, usize>`
that reads the input line by line (`BufRead::lines`, which splits on the byte
`\n` and additionally strips a `\r` that directly precedes a stripped `\n`),
panics on a line that is not valid UTF-8 (`line.unwrap()`), and otherwise
tallies units into the map: one unit per Unicode scalar value (`Char`), one
per match of the regex `\w+` (`Word`), or one per line (`Line`).

Modelling choices:
* the input stream is a byte list `List Nat` (each entry is one byte);
* strings are lists of Unicode scalar values (`Key := List Nat`), so the
  decoded line and the map keys are codepoint lists;
* the `HashMap<String, usize>` is an association list `FreqTable`; the Rust
  statement `*freqs.entry(k).or_insert(0) += 1` becomes `incr`;
* a panic (invalid UTF-8 line) is `none`: `count` returns `Option FreqTable`;
* the regex `\w+` scans for maximal non-overlapping runs of word-class
  characters.  The word-class itself (the regex crate's Unicode-aware `\w`)
  is abstracted as a parameter `isW : Nat → Bool` on scalar values; theorems
  are proved for every class, and `asciiWordChar` (the restriction of `\w`
  to ASCII, which agrees with `\w` on all ASCII-only test inputs) is used
  for concrete evaluations.
-/

/-- Keys of the frequency table: a string, as its list of Unicode scalar
values. -/
abbrev Key := List Nat

/-- The result map `HashMap<String, usize>`, as an association list.
Iteration order of the Rust `HashMap` is irrelevant; the table is
inspected only through key membership and per-key counts. -/
abbrev FreqTable := List (Key × Nat)

/-- The `CountOption` enum of src/lib.rs. -/
inductive CountOption where
  /-- Count frequency of each character. -/
  | Char
  /-- Count frequency of each word (`\w+` match). -/
  | Word
  /-- Count frequency of each line. -/
  | Line
deriving DecidableEq

/-- The `Default` impl of `CountOption`: `Word`. -/
def CountOption.default : CountOption := CountOption.Word

/-- Strip one leading 13 (`\r`).  Applied to the reversed accumulated chunk
it models the `\r`-stripping of `BufRead::lines` on a terminated line. -/
def dropCR (l : List Nat) : List Nat := if l.head? = some 13 then l.tail else l

/-- Worker for `rustLines`: `acc` is the reversed current chunk.  On the byte
10 (`\n`) the chunk is emitted with a directly preceding 13 (`\r`) stripped;
at end of input a nonempty unterminated chunk is emitted as is (in
particular it keeps a trailing `\r`, exactly as `BufRead::lines` does). -/
def linesAux : List Nat → List Nat → List (List Nat)
  | [], acc => if acc = [] then [] else [acc.reverse]
  | b :: bs, acc =>
    if b = 10 then (dropCR acc).reverse :: linesAux bs []
    else linesAux bs (b :: acc)

/-- The byte chunks yielded by `input.lines()` (before UTF-8 decoding):
split on `\n`, strip the terminator and a `\r` directly before it, keep a
final unterminated nonempty chunk. -/
def rustLines (bs : List Nat) : List (List Nat) := linesAux bs []

/-- UTF-8 continuation byte test (`0x80 ≤ b ≤ 0xBF`). -/
def isCont (b : Nat) : Bool := 0x80 ≤ b && b ≤ 0xBF

/-- Admissible second byte of a three-byte sequence headed by `b`
(per RFC 3629 / Rust `str::from_utf8`: excludes overlongs and surrogates). -/
def cont3ok (b b1 : Nat) : Bool :=
  if b = 0xE0 then 0xA0 ≤ b1 && b1 ≤ 0xBF
  else if b = 0xED then 0x80 ≤ b1 && b1 ≤ 0x9F
  else isCont b1

/-- Admissible second byte of a four-byte sequence headed by `b`
(per RFC 3629 / Rust `str::from_utf8`: excludes overlongs and values above
U+10FFFF). -/
def cont4ok (b b1 : Nat) : Bool :=
  if b = 0xF0 then 0x90 ≤ b1 && b1 ≤ 0xBF
  else if b = 0xF4 then 0x80 ≤ b1 && b1 ≤ 0x8F
  else isCont b1

/-- Scalar value encoded by a two-byte sequence. -/
def cp2 (b b1 : Nat) : Nat := (b - 0xC0) * 0x40 + (b1 - 0x80)

/-- Scalar value encoded by a three-byte sequence. -/
def cp3 (b b1 b2 : Nat) : Nat :=
  (b - 0xE0) * 0x1000 + (b1 - 0x80) * 0x40 + (b2 - 0x80)

/-- Scalar value encoded by a four-byte sequence. -/
def cp4 (b b1 b2 b3 : Nat) : Nat :=
  (b - 0xF0) * 0x40000 + (b1 - 0x80) * 0x1000 + (b2 - 0x80) * 0x40 + (b3 - 0x80)

/-- UTF-8 decoding of a byte list into its scalar values, with exactly the
acceptance set of Rust's `String::from_utf8` (used by `BufRead::read_line`,
whose failure `line.unwrap()` turns into a panic): `none` on any malformed
sequence, including overlong encodings, surrogates, values above U+10FFFF,
bad continuation bytes, and truncated sequences.  The match is organised by
list shape first (so the recursion is structural); within each shape the
lead byte `b` selects the sequence length: `00–7F` one byte, `C2–DF` two,
`E0–EF` three (second byte restricted by `cont3ok`), `F0–F4` four (second
byte restricted by `cont4ok`); anything else is malformed.  Shorter shapes
lack the longer-sequence branches because those would be truncated. -/
def utf8Decode : List Nat → Option (List Nat)
  | [] => some []
  | [b] => if b ≤ 0x7F then some [b] else none
  | [b, b1] =>
    if b ≤ 0x7F then (utf8Decode [b1]).map (fun cs => b :: cs)
    else if 0xC2 ≤ b ∧ b ≤ 0xDF then
      if isCont b1 then some [cp2 b b1] else none
    else none
  | [b, b1, b2] =>
    if b ≤ 0x7F then (utf8Decode [b1, b2]).map (fun cs => b :: cs)
    else if 0xC2 ≤ b ∧ b ≤ 0xDF then
      if isCont b1 then (utf8Decode [b2]).map (fun cs => cp2 b b1 :: cs) else none
    else if 0xE0 ≤ b ∧ b ≤ 0xEF then
      if cont3ok b b1 && isCont b2 then some [cp3 b b1 b2] else none
    else none
  | b :: b1 :: b2 :: b3 :: rest =>
    if b ≤ 0x7F then (utf8Decode (b1 :: b2 :: b3 :: rest)).map (fun cs => b :: cs)
    else if 0xC2 ≤ b ∧ b ≤ 0xDF then
      if isCont b1 then (utf8Decode (b2 :: b3 :: rest)).map (fun cs => cp2 b b1 :: cs)
      else none
    else if 0xE0 ≤ b ∧ b ≤ 0xEF then
      if cont3ok b b1 && isCont b2 then
        (utf8Decode (b3 :: rest)).map (fun cs => cp3 b b1 b2 :: cs)
      else none
    else if 0xF0 ≤ b ∧ b ≤ 0xF4 then
      if cont4ok b b1 && isCont b2 && isCont b3 then
        (utf8Decode rest).map (fun cs => cp4 b b1 b2 b3 :: cs)
      else none
    else none

/-- Worker for `wordRuns`: left-to-right scan, `cur` is the reversed current
run of word-class characters. -/
def wordRunsAux (isW : Nat → Bool) : List Nat → List Nat → List (List Nat)
  | [], cur => if cur = [] then [] else [cur.reverse]
  | c :: rest, cur =>
    if isW c then wordRunsAux isW rest (c :: cur)
    else if cur = [] then wordRunsAux isW rest []
    else cur.reverse :: wordRunsAux isW rest []

/-- The matches of the regex `\w+` on a line: the maximal non-overlapping
runs of word-class characters, in left-to-right order, each kept verbatim
(this is what `Regex::new(r"\w+").find_iter(&line)` yields). -/
def wordRuns (isW : Nat → Bool) (line : List Nat) : List (List Nat) :=
  wordRunsAux isW line []

/-- The Rust statement `*freqs.entry(key).or_insert(0) += 1`: increment the
count of `key`, inserting it with count 1 when absent. -/
def incr (key : Key) : FreqTable → FreqTable
  | [] => [(key, 1)]
  | (k, n) :: rest => if k = key then (k, n + 1) :: rest else (k, n) :: incr key rest

/-- The per-line body of the `for` loop in `count`: the `match option` of
src/lib.rs lines 58–71, acting on an already decoded line. -/
def processLine (isW : Nat → Bool) (option : CountOption) (line : List Nat)
    (freqs : FreqTable) : FreqTable :=
  match option with
  | CountOption.Char => line.foldl (fun t c => incr [c] t) freqs
  | CountOption.Word => (wordRuns isW line).foldl (fun t w => incr w t) freqs
  | CountOption.Line => incr line freqs

/-- The `for line in input.lines()` loop of `count`: decode each byte chunk
(`line.unwrap()`, i.e. abort with `none` on malformed UTF-8) and fold the
per-line tally. -/
def countFromLines (isW : Nat → Bool) (option : CountOption) :
    List (List Nat) → FreqTable → Option FreqTable
  | [], freqs => some freqs
  | lb :: rest, freqs =>
    match utf8Decode lb with
    | none => none
    | some line => countFromLines isW option rest (processLine isW option line freqs)

/-- The `count` function of src/lib.rs: split the input bytes into lines,
start from the empty map, tally per line; `none` models the panic on a line
that fails UTF-8 decoding. -/
def count (isW : Nat → Bool) (input : List Nat) (option : CountOption) :
    Option FreqTable :=
  countFromLines isW option (rustLines input) []

/-- The word-character class `\w` restricted to ASCII: letters, digits,
underscore.  It agrees with the regex crate's Unicode-aware `\w` on every
ASCII scalar value. -/
def asciiWordChar (c : Nat) : Bool :=
  (48 ≤ c && c ≤ 57) || (65 ≤ c && c ≤ 90) || (97 ≤ c && c ≤ 122) || c == 95

/-- The units counted for one line under a given mode: the singleton
characters, the `\w+` matches, or the line itself. -/
def lineUnits (isW : Nat → Bool) (option : CountOption) (line : List Nat) :
    List Key :=
  match option with
  | CountOption.Char => line.map (fun c => [c])
  | CountOption.Word => wordRuns isW line
  | CountOption.Line => [line]

/-- Decode every line chunk; `none` as soon as one chunk is malformed. -/
def decodeLines : List (List Nat) → Option (List (List Nat))
  | [] => some []
  | lb :: rest =>
    match utf8Decode lb, decodeLines rest with
    | some line, some ls => some (line :: ls)
    | _, _ => none

/-- All units of the input under a mode, in input order: the concatenation,
over the decoded lines, of each line's units.  `none` when the input has a
malformed line. -/
def inputUnits (isW : Nat → Bool) (option : CountOption) (input : List Nat) :
    Option (List Key) :=
  (decodeLines (rustLines input)).map (fun ls => (ls.map (lineUnits isW option)).flatten)

/-- Count of a key in the table; 0 when the key is absent (for tables built
by `incr` from the empty table, keys are unique, so this is the map's
value at the key). -/
def getCount : FreqTable → Key → Nat
  | [], _ => 0
  | (k, n) :: rest, key => if k = key then n else getCount rest key

/-- Sum of all counts in the table. -/
def sumCounts (t : FreqTable) : Nat := (t.map (fun p => p.2)).sum

/-- Number of occurrences of a key in a list of units. -/
def countKey (key : Key) : List Key → Nat
  | [] => 0
  | u :: us => (if u = key then 1 else 0) + countKey key us

/-- Fold `incr` over a unit list (the accumulated effect of the per-line
loops of `count`). -/
def applyUnits (us : List Key) (t : FreqTable) : FreqTable :=
  us.foldl (fun t u => incr u t) t

/-- Join a list of line contents, terminating every line with `term`. -/
def joinWith (term : List Nat) (contents : List (List Nat)) : List Nat :=
  (contents.map (fun l => l ++ term)).flatten

theorem getCount_incr (key k : Key) (t : FreqTable) :
    getCount (incr key t) k = if key = k then getCount t k + 1 else getCount t k := by
  induction t with
  | nil => by_cases h : key = k <;> simp [incr, getCount, h]
  | cons p rest ih =>
    obtain ⟨k0, n0⟩ := p
    by_cases h1 : k0 = key
    · subst h1
      by_cases h2 : k0 = k <;> simp [incr, getCount, h2]
    · by_cases h2 : k0 = k
      · subst h2
        have hkk : ¬ key = k0 := fun h => h1 h.symm
        simp [incr, getCount, h1, hkk]
      · simp [incr, getCount, h1, h2, ih]

theorem sumCounts_incr (key : Key) (t : FreqTable) :
    sumCounts (incr key t) = sumCounts t + 1 := by
  induction t with
  | nil => simp [incr, sumCounts]
  | cons p rest ih =>
    obtain ⟨k0, n0⟩ := p
    by_cases h1 : k0 = key <;> simp [incr, sumCounts, h1] <;>
      simp [sumCounts] at ih <;> omega

theorem pos_incr (key : Key) (t : FreqTable) (ht : ∀ p ∈ t, 1 ≤ p.2) :
    ∀ p ∈ incr key t, 1 ≤ p.2 := by
  induction t with
  | nil => simp [incr]
  | cons p rest ih =>
    obtain ⟨k0, n0⟩ := p
    by_cases h1 : k0 = key
    · intro q hq
      simp [incr, h1] at hq
      rcases hq with hq | hq
      · simp [hq]
      · exact ht q (List.mem_cons_of_mem _ hq)
    · intro q hq
      simp only [incr, if_neg h1, List.mem_cons] at hq
      rcases hq with hq | hq
      · exact ht q (by simp [hq])
      · exact ih (fun p hp => ht p (List.mem_cons_of_mem _ hp)) q hq

theorem keys_incr (key : Key) (t : FreqTable) :
    (incr key t).map Prod.fst =
      if key ∈ t.map Prod.fst then t.map Prod.fst else t.map Prod.fst ++ [key] := by
  induction t with
  | nil => simp [incr]
  | cons p rest ih =>
    obtain ⟨k0, n0⟩ := p
    by_cases h1 : k0 = key
    · subst h1
      simp [incr]
    · have hne : ¬ key = k0 := fun h => h1 h.symm
      by_cases h2 : key ∈ rest.map Prod.fst <;>
        simp [incr, h1, h2, hne, ih]

theorem nodup_incr (key : Key) (t : FreqTable)
    (ht : (t.map Prod.fst).Nodup) : ((incr key t).map Prod.fst).Nodup := by
  rw [keys_incr]
  by_cases h : key ∈ t.map Prod.fst
  · simpa [h] using ht
  · simp only [if_neg h]
    exact (List.nodup_append.mpr ⟨ht, List.nodup_singleton key, by simpa using h⟩)

theorem mem_keys_incr (key k : Key) (t : FreqTable)
    (h : k ∈ (incr key t).map Prod.fst) : k = key ∨ k ∈ t.map Prod.fst := by
  rw [keys_incr] at h
  by_cases hm : key ∈ t.map Prod.fst
  · right; simpa [hm] using h
  · simp only [if_neg hm, List.mem_append, List.mem_singleton] at h
    exact h.symm

theorem getCount_of_mem_nodup (t : FreqTable) (k : Key) (n : Nat)
    (hnd : (t.map Prod.fst).Nodup) (hmem : (k, n) ∈ t) : getCount t k = n := by
  induction t with
  | nil => simp at hmem
  | cons p rest ih =>
    obtain ⟨k0, n0⟩ := p
    simp only [List.mem_cons] at hmem
    rcases hmem with hmem | hmem
    · have h1 : k = k0 := congrArg Prod.fst hmem
      have h2 : n = n0 := congrArg Prod.snd hmem
      subst h1
      subst h2
      simp [getCount]
    · have hk : k ∈ rest.map Prod.fst := List.mem_map_of_mem Prod.fst hmem
      simp only [List.map_cons, List.nodup_cons] at hnd
      have h0 : ¬ k0 = k := by
        intro h
        exact hnd.1 (by rw [h]; exact hk)
      simp [getCount, h0, ih hnd.2 hmem]

theorem applyUnits_nil (t : FreqTable) : applyUnits [] t = t := rfl

theorem applyUnits_cons (u : Key) (us : List Key) (t : FreqTable) :
    applyUnits (u :: us) t = applyUnits us (incr u t) := rfl

theorem applyUnits_append (a b : List Key) (t : FreqTable) :
    applyUnits (a ++ b) t = applyUnits b (applyUnits a t) := by
  simp [applyUnits, List.foldl_append]

theorem getCount_applyUnits (us : List Key) (t : FreqTable) (k : Key) :
    getCount (applyUnits us t) k = getCount t k + countKey k us := by
  induction us generalizing t with
  | nil => simp [applyUnits, countKey]
  | cons u us ih =>
    rw [applyUnits_cons, ih, getCount_incr]
    simp only [countKey]
    split <;> omega

theorem sumCounts_applyUnits (us : List Key) (t : FreqTable) :
    sumCounts (applyUnits us t) = sumCounts t + us.length := by
  induction us generalizing t with
  | nil => simp [applyUnits]
  | cons u us ih => rw [applyUnits_cons, ih, sumCounts_incr, List.length_cons]; omega

theorem pos_applyUnits (us : List Key) (t : FreqTable)
    (ht : ∀ p ∈ t, 1 ≤ p.2) : ∀ p ∈ applyUnits us t, 1 ≤ p.2 := by
  induction us generalizing t with
  | nil => exact ht
  | cons u us ih => exact fun p hp => ih (incr u t) (pos_incr u t ht) p hp

theorem nodup_applyUnits (us : List Key) (t : FreqTable)
    (ht : (t.map Prod.fst).Nodup) : ((applyUnits us t).map Prod.fst).Nodup := by
  induction us generalizing t with
  | nil => exact ht
  | cons u us ih => exact ih (incr u t) (nodup_incr u t ht)

theorem mem_applyUnits_key (us : List Key) (t : FreqTable) (p : Key × Nat)
    (hp : p ∈ applyUnits us t) : p.1 ∈ us ∨ p.1 ∈ t.map Prod.fst := by
  induction us generalizing t with
  | nil => right; exact List.mem_map_of_mem Prod.fst hp
  | cons u us ih =>
    rw [applyUnits_cons] at hp
    rcases ih (incr u t) hp with h | h
    · left; exact List.mem_cons_of_mem _ h
    · rcases mem_keys_incr u p.1 t h with h2 | h2
      · left; simp [h2]
      · right; exact h2

theorem processLine_eq (isW : Nat → Bool) (option : CountOption) (line : List Nat)
    (t : FreqTable) :
    processLine isW option line t = applyUnits (lineUnits isW option line) t := by
  cases option with
  | Char => simp [processLine, lineUnits, applyUnits, List.foldl_map]
  | Word => rfl
  | Line => simp [applyUnits, lineUnits, processLine, applyUnits_cons]

theorem countFromLines_eq (isW : Nat → Bool) (option : CountOption)
    (lbs : List (List Nat)) (t : FreqTable) :
    countFromLines isW option lbs t =
      (decodeLines lbs).map
        (fun ls => applyUnits ((ls.map (lineUnits isW option)).flatten) t) := by
  induction lbs generalizing t with
  | nil => simp [countFromLines, decodeLines, applyUnits]
  | cons lb rest ih =>
    cases hd : utf8Decode lb with
    | none => simp [countFromLines, decodeLines, hd]
    | some line =>
      rw [countFromLines, hd]
      simp only
      rw [ih]
      cases hr : decodeLines rest with
      | none => simp [decodeLines, hd, hr]
      | some ls =>
        simp [decodeLines, hd, hr, applyUnits_append, processLine_eq]

theorem count_eq (isW : Nat → Bool) (input : List Nat) (option : CountOption) :
    count isW input option =
      (inputUnits isW option input).map (fun us => applyUnits us []) := by
  rw [count, countFromLines_eq, inputUnits]
  cases decodeLines (rustLines input) <;> simp

theorem count_some_units (isW : Nat → Bool) (input : List Nat)
    (option : CountOption) (t : FreqTable) (h : count isW input option = some t) :
    ∃ us, inputUnits isW option input = some us ∧ t = applyUnits us [] := by
  rw [count_eq] at h
  cases hu : inputUnits isW option input with
  | none => rw [hu] at h; simp at h
  | some us =>
    rw [hu, Option.map_some'] at h
    exact ⟨us, rfl, (Option.some.inj h).symm⟩

theorem count_table_spec (isW : Nat → Bool) (input : List Nat)
    (option : CountOption) (t : FreqTable) (us : List Key)
    (h : count isW input option = some t)
    (hu : inputUnits isW option input = some us) :
    sumCounts t = us.length ∧ (∀ k, getCount t k = countKey k us) ∧
      (∀ p ∈ t, p.2 = countKey p.1 us ∧ 1 ≤ p.2) := by
  obtain ⟨us2, hu2, ht⟩ := count_some_units isW input option t h
  rw [hu] at hu2
  cases hu2
  subst ht
  refine ⟨?_, ?_, ?_⟩
  · rw [sumCounts_applyUnits]
    simp [sumCounts]
  · intro k
    rw [getCount_applyUnits]
    simp [getCount]
  · intro p hp
    constructor
    · have hnd := nodup_applyUnits us [] (by simp)
      have := getCount_of_mem_nodup (applyUnits us []) p.1 p.2 hnd (by simpa using hp)
      rw [getCount_applyUnits] at this
      simp only [getCount] at this
      omega
    · exact pos_applyUnits us [] (by simp) p hp

theorem decodeLines_none (lbs : List (List Nat)) (lb : List Nat)
    (hmem : lb ∈ lbs) (hbad : utf8Decode lb = none) : decodeLines lbs = none := by
  induction lbs with
  | nil => simp at hmem
  | cons hd rest ih =>
    rcases List.mem_cons.mp hmem with h | h
    · subst h
      simp [decodeLines, hbad]
    · rw [decodeLines, ih h]
      cases utf8Decode hd <;> rfl

theorem mem_units_char (isW : Nat → Bool) (input : List Nat) (us : List Key)
    (hu : inputUnits isW CountOption.Char input = some us) :
    ∀ u ∈ us, u.length = 1 := by
  rw [inputUnits] at hu
  cases hd : decodeLines (rustLines input) with
  | none => rw [hd] at hu; simp at hu
  | some ls =>
    rw [hd, Option.map_some'] at hu
    intro u hmem
    rw [← Option.some.inj hu] at hmem
    rw [List.mem_flatten] at hmem
    obtain ⟨l, hl, hul⟩ := hmem
    rw [List.mem_map] at hl
    obtain ⟨line, _, hline⟩ := hl
    rw [← hline] at hul
    simp only [lineUnits, List.mem_map] at hul
    obtain ⟨c, _, hc⟩ := hul
    rw [← hc]
    rfl

/-- C1: for every valid-UTF-8 input and every mode, the sum of all counts in
the table returned by `count` equals the total number of units of that
mode's kind in the input, and every key's count equals the number of times
that exact unit appeared (keys absent from the table occurred zero times):
no unit is double-counted or dropped. -/
theorem claim_C1 (isW : Nat → Bool) (input : List Nat) (option : CountOption)
    (t : FreqTable) (us : List Key)
    (h : count isW input option = some t)
    (hu : inputUnits isW option input = some us) :
    sumCounts t = us.length ∧ (∀ k, getCount t k = countKey k us) ∧
      ∀ p ∈ t, p.2 = countKey p.1 us := by
  obtain ⟨h1, h2, h3⟩ := count_table_spec isW input option t us h hu
  exact ⟨h1, h2, fun p hp => (h3 p hp).1⟩

theorem claim_C1_witness :
    sumCounts [([97, 97], 1), ([98, 98], 1)] = List.length [[97, 97], [98, 98]] ∧
      getCount [([97, 97], 1), ([98, 98], 1)] [97, 97] =
        countKey [97, 97] [[97, 97], [98, 98]] := by
  have h := claim_C1 asciiWordChar [97, 97, 32, 98, 98] CountOption.Word
    [([97, 97], 1), ([98, 98], 1)] [[97, 97], [98, 98]] (by decide) (by decide)
  exact ⟨h.1, h.2.1 [97, 97]⟩

/-- C2: an input containing a line that fails UTF-8 decoding makes `count`
fail fatally (the panic, modelled as `none`) in every mode: no table,
partial or otherwise, is returned, and counts from earlier valid lines are
discarded. -/
theorem claim_C2 (isW : Nat → Bool) (input : List Nat) (lb : List Nat)
    (option : CountOption) (hmem : lb ∈ rustLines input)
    (hbad : utf8Decode lb = none) : count isW input option = none := by
  rw [count_eq, inputUnits, decodeLines_none (rustLines input) lb hmem hbad]
  rfl

theorem claim_C2_witness :
    count asciiWordChar [97, 0xf0, 0x90, 0x80, 0xe3, 0x81, 0x82] CountOption.Word =
      none :=
  claim_C2 asciiWordChar [97, 0xf0, 0x90, 0x80, 0xe3, 0x81, 0x82]
    [97, 0xf0, 0x90, 0x80, 0xe3, 0x81, 0x82] CountOption.Word (by decide) (by decide)

/-- C3: in Word mode, `count` tallies exactly the left-to-right maximal
non-overlapping runs of word-class characters of each line (`wordRuns`, the
`\w+` matches), keyed by the matched substring verbatim — every key's count
is the number of occurrences of that exact match; in particular on
`"aa bb cc bb"` it returns exactly `{"aa": 1, "bb": 2, "cc": 1}`. -/
theorem claim_C3 (isW : Nat → Bool) (input : List Nat) (t : FreqTable)
    (us : List Key) (h : count isW input CountOption.Word = some t)
    (hu : inputUnits isW CountOption.Word input = some us) :
    (∀ k, getCount t k = countKey k us) ∧
      count asciiWordChar [97, 97, 32, 98, 98, 32, 99, 99, 32, 98, 98]
          CountOption.Word =
        some [([97, 97], 1), ([98, 98], 2), ([99, 99], 1)] :=
  ⟨(count_table_spec isW input CountOption.Word t us h hu).2.1, by decide⟩

theorem claim_C3_witness :
    getCount [([97, 97], 1), ([98, 98], 2), ([99, 99], 1)] [98, 98] =
      countKey [98, 98] [[97, 97], [98, 98], [99, 99], [98, 98]] := by
  have h := claim_C3 asciiWordChar [97, 97, 32, 98, 98, 32, 99, 99, 32, 98, 98]
    [([97, 97], 1), ([98, 98], 2), ([99, 99], 1)]
    [[97, 97], [98, 98], [99, 99], [98, 98]] (by decide) (by decide)
  exact h.1 [98, 98]

/-- C5: in Char mode, `count` decomposes each line into its Unicode scalar
values and counts each scalar under its single-character string form: every
key of the table has length one, and every key's count is the number of
occurrences of that scalar in the input; for input `"ab"` the result is
exactly `{"a": 1, "b": 1}`. -/
theorem claim_C5 (isW : Nat → Bool) (input : List Nat) (t : FreqTable)
    (us : List Key) (h : count isW input CountOption.Char = some t)
    (hu : inputUnits isW CountOption.Char input = some us) :
    (∀ p ∈ t, p.1.length = 1) ∧ (∀ k, getCount t k = countKey k us) ∧
      count asciiWordChar [97, 98] CountOption.Char =
        some [([97], 1), ([98], 1)] := by
  refine ⟨?_, (count_table_spec isW input CountOption.Char t us h hu).2.1, by decide⟩
  intro p hp
  obtain ⟨us2, hu2, ht⟩ := count_some_units isW input CountOption.Char t h
  rw [hu] at hu2
  cases hu2
  subst ht
  rcases mem_applyUnits_key us [] p hp with hk | hk
  · exact mem_units_char isW input us hu p.1 hk
  · simp at hk

theorem claim_C5_witness :
    List.length [97] = 1 ∧
      getCount [([97], 1), ([98], 1)] [98] = countKey [98] [[97], [98]] := by
  have h := claim_C5 asciiWordChar [97, 98] [([97], 1), ([98], 1)] [[97], [98]]
    (by decide) (by decide)
  exact ⟨h.1 ([97], 1) (by decide), h.2.1 [98]⟩

/-- C6: empty input is not an error and yields the empty table in every
mode; an empty line contributes no entry in Char and Word mode and exactly
one increment of the empty-string key in Line mode; a line with no `\w+`
match (here two spaces) contributes no count and raises no error. -/
theorem claim_C6 (isW : Nat → Bool) :
    (∀ option, count isW [] option = some []) ∧
      count isW [10] CountOption.Char = some [] ∧
      count isW [10] CountOption.Word = some [] ∧
      count isW [10] CountOption.Line = some [([], 1)] ∧
      count asciiWordChar [32, 32] CountOption.Word = some [] := by
  refine ⟨fun option => ?_, rfl, rfl, rfl, by decide⟩
  cases option <;> rfl

/-- C7: the default value of `CountOption` is `Word`, and counting with the
default mode gives the same table as passing `Word` explicitly, for every
input. -/
theorem claim_C7 (isW : Nat → Bool) (input : List Nat) :
    CountOption.default = CountOption.Word ∧
      count isW input CountOption.default = count isW input CountOption.Word :=
  ⟨rfl, rfl⟩

/-- C8: `count` is deterministic: two invocations on the same input and
mode yield tables with identical key-to-count pairs (equal as sets of
pairs, and with equal per-key counts; iteration order is not part of the
result). -/
theorem claim_C8 (isW : Nat → Bool) (input : List Nat) (option : CountOption)
    (t1 t2 : FreqTable) (h1 : count isW input option = some t1)
    (h2 : count isW input option = some t2) :
    (∀ p, p ∈ t1 ↔ p ∈ t2) ∧ ∀ k, getCount t1 k = getCount t2 k := by
  have heq : t1 = t2 := Option.some.inj (h1.symm.trans h2)
  subst heq
  exact ⟨fun p => Iff.rfl, fun k => rfl⟩

theorem claim_C8_witness :
    (([97], 1) ∈ ([([97], 1)] : FreqTable) ↔ ([97], 1) ∈ ([([97], 1)] : FreqTable)) ∧
      getCount [([97], 1)] [97] = getCount [([97], 1)] [97] := by
  have h := claim_C8 asciiWordChar [97] CountOption.Char [([97], 1)] [([97], 1)]
    (by decide) (by decide)
  exact ⟨h.1 ([97], 1), h.2 [97]⟩

/-- C9: every key present in a table returned by `count` has count at least
1 — no key is ever inserted with, or left at, a zero count. -/
theorem claim_C9 (isW : Nat → Bool) (input : List Nat) (option : CountOption)
    (t : FreqTable) (h : count isW input option = some t) :
    ∀ p ∈ t, 1 ≤ p.2 := by
  obtain ⟨us, _, ht⟩ := count_some_units isW input option t h
  subst ht
  exact pos_applyUnits us [] (by simp)

theorem claim_C9_witness : 1 ≤ (([97], 3) : Key × Nat).2 :=
  claim_C9 asciiWordChar [97, 97, 97] CountOption.Char [([97], 3)] (by decide)
    ([97], 3) (by decide)

theorem dropCR_eq_of_head (l : List Nat) (h : l.head? ≠ some 13) : dropCR l = l := by
  simp [dropCR, h]

theorem mem_dropCR (l : List Nat) (x : Nat) (h : x ∈ dropCR l) : x ∈ l := by
  rw [dropCR] at h
  split at h
  · exact List.mem_of_mem_tail h
  · exact h

theorem linesAux_split (l rest acc : List Nat) (h : 10 ∉ l) :
    linesAux (l ++ 10 :: rest) acc =
      (dropCR (l.reverse ++ acc)).reverse :: linesAux rest [] := by
  induction l generalizing acc with
  | nil => simp [linesAux]
  | cons b l ih =>
    have hb : ¬ b = 10 := fun h2 => h (by simp [h2])
    have h2 : 10 ∉ l := fun hm => h (List.mem_cons_of_mem _ hm)
    simp only [List.cons_append, linesAux, if_neg hb, List.append_eq]
    rw [ih (b :: acc) h2]
    simp [List.append_assoc]

theorem rustLines_joinWith_nl (contents : List (List Nat))
    (h10 : ∀ l ∈ contents, 10 ∉ l)
    (h13 : ∀ l ∈ contents, l.getLast? ≠ some 13) :
    rustLines (joinWith [10] contents) = contents := by
  induction contents with
  | nil => rfl
  | cons l rest ih =>
    have hj : joinWith [10] (l :: rest) = l ++ 10 :: joinWith [10] rest := by
      simp [joinWith]
    rw [rustLines, hj, linesAux_split l (joinWith [10] rest) [] (h10 l (by simp))]
    rw [List.append_nil, dropCR_eq_of_head]
    · rw [List.reverse_reverse]
      rw [rustLines] at ih
      rw [ih (fun x hx => h10 x (by simp [hx])) (fun x hx => h13 x (by simp [hx]))]
    · rw [List.head?_reverse]
      exact h13 l (by simp)

theorem rustLines_joinWith_crnl (contents : List (List Nat))
    (h10 : ∀ l ∈ contents, 10 ∉ l) :
    rustLines (joinWith [13, 10] contents) = contents := by
  induction contents with
  | nil => rfl
  | cons l rest ih =>
    have hj : joinWith [13, 10] (l :: rest) =
        (l ++ [13]) ++ 10 :: joinWith [13, 10] rest := by
      simp [joinWith]
    have h1013 : 10 ∉ l ++ [13] := by
      intro hm
      rcases List.mem_append.mp hm with hm | hm
      · exact h10 l (by simp) hm
      · simp at hm
    rw [rustLines, hj, linesAux_split (l ++ [13]) (joinWith [13, 10] rest) [] h1013]
    have hrev : ((l ++ [13]).reverse ++ ([] : List Nat)) = 13 :: l.reverse := by
      simp
    rw [hrev]
    have hdrop : dropCR (13 :: l.reverse) = l.reverse := by simp [dropCR]
    rw [hdrop, List.reverse_reverse]
    rw [rustLines] at ih
    rw [ih (fun x hx => h10 x (by simp [hx]))]

theorem linesAux_no10 (bs acc : List Nat) (hacc : 10 ∉ acc) :
    ∀ l ∈ linesAux bs acc, 10 ∉ l := by
  induction bs generalizing acc with
  | nil =>
    intro l hl
    rw [linesAux] at hl
    split at hl
    · simp at hl
    · rw [List.mem_singleton] at hl
      subst hl
      simpa using hacc
  | cons b bs ih =>
    intro l hl
    rw [linesAux] at hl
    split at hl
    · rcases List.mem_cons.mp hl with h | h
      · subst h
        intro hm
        exact hacc (mem_dropCR acc 10 (List.mem_reverse.mp hm))
      · exact ih [] (by simp) l h
    · next hb =>
      have hne : ¬ (10 : Nat) = b := fun h2 => hb h2.symm
      exact ih (b :: acc) (by simp [hacc, hne]) l hl

theorem decodeLines_mem (lbs ls : List (List Nat)) (l : List Nat)
    (h : decodeLines lbs = some ls) (hl : l ∈ ls) :
    ∃ lb ∈ lbs, utf8Decode lb = some l := by
  induction lbs generalizing ls with
  | nil =>
    rw [decodeLines] at h
    cases Option.some.inj h
    simp at hl
  | cons lb rest ih =>
    rw [decodeLines] at h
    cases hd : utf8Decode lb with
    | none => rw [hd] at h; simp at h
    | some line =>
      rw [hd] at h
      cases hr : decodeLines rest with
      | none => rw [hr] at h; simp at h
      | some ls2 =>
        rw [hr] at h
        cases Option.some.inj h
        rcases List.mem_cons.mp hl with h2 | h2
        · exact ⟨lb, by simp, by rw [hd, h2]⟩
        · obtain ⟨lb2, hmem, hdec⟩ := ih ls2 hr h2
          exact ⟨lb2, List.mem_cons_of_mem _ hmem, hdec⟩

theorem isCont_bounds (b1 : Nat) (h : isCont b1 = true) : 0x80 ≤ b1 ∧ b1 ≤ 0xBF := by
  simpa [isCont] using h

theorem isCont_false_of_low (a : Nat) (ha : a ≤ 0x7F) : isCont a = false := by
  simp [isCont]
  omega

theorem cont3ok_bounds (b b1 : Nat) (h : cont3ok b b1 = true) :
    0x80 ≤ b1 ∧ b1 ≤ 0xBF := by
  by_cases h0 : b = 0xE0
  · simp [cont3ok, h0] at h
    omega
  · by_cases h1 : b = 0xED
    · simp [cont3ok, h0, h1] at h
      omega
    · simp [cont3ok, h0, h1] at h
      exact isCont_bounds b1 h

theorem cont3ok_large (b b1 : Nat) (hb : 0xE0 ≤ b) (h : cont3ok b b1 = true) :
    0xE1 ≤ b ∨ 0xA0 ≤ b1 := by
  by_cases h0 : b = 0xE0
  · simp [cont3ok, h0] at h
    right
    omega
  · left
    omega

theorem cont4ok_bounds (b b1 : Nat) (h : cont4ok b b1 = true) :
    0x80 ≤ b1 ∧ b1 ≤ 0xBF := by
  by_cases h0 : b = 0xF0
  · simp [cont4ok, h0] at h
    omega
  · by_cases h1 : b = 0xF4
    · simp [cont4ok, h0, h1] at h
      omega
    · simp [cont4ok, h0, h1] at h
      exact isCont_bounds b1 h

theorem cont4ok_large (b b1 : Nat) (hb : 0xF0 ≤ b) (h : cont4ok b b1 = true) :
    0xF1 ≤ b ∨ 0x90 ≤ b1 := by
  by_cases h0 : b = 0xF0
  · simp [cont4ok, h0] at h
    right
    omega
  · left
    omega

theorem cp2_big (b b1 : Nat) (hb : 0xC2 ≤ b) (hc : isCont b1 = true) :
    0x80 ≤ cp2 b b1 := by
  obtain ⟨h1, _⟩ := isCont_bounds b1 hc
  rw [cp2]
  omega

theorem cp3_big (b b1 b2 : Nat) (hb : 0xE0 ≤ b)
    (hg : (cont3ok b b1 && isCont b2) = true) : 0x80 ≤ cp3 b b1 b2 := by
  rw [Bool.and_eq_true] at hg
  obtain ⟨hb1, _⟩ := cont3ok_bounds b b1 hg.1
  obtain ⟨hb2, _⟩ := isCont_bounds b2 hg.2
  rcases cont3ok_large b b1 hb hg.1 with h | h <;> (rw [cp3]; omega)

theorem cp4_big (b b1 b2 b3 : Nat) (hb : 0xF0 ≤ b)
    (hg : (cont4ok b b1 && isCont b2 && isCont b3) = true) : 0x80 ≤ cp4 b b1 b2 b3 := by
  rw [Bool.and_eq_true, Bool.and_eq_true] at hg
  obtain ⟨hb1, _⟩ := cont4ok_bounds b b1 hg.1.1
  obtain ⟨hb2, _⟩ := isCont_bounds b2 hg.1.2
  obtain ⟨hb3, _⟩ := isCont_bounds b3 hg.2
  rcases cont4ok_large b b1 hb hg.1.1 with h | h <;> (rw [cp4]; omega)

theorem utf8Decode_append_low (a : Nat) (ha : a ≤ 0x7F) (bs : List Nat) :
    utf8Decode (bs ++ [a]) = (utf8Decode bs).map (fun cs => cs ++ [a]) := by
  have hca : isCont a = false := isCont_false_of_low a ha
  induction bs using utf8Decode.induct with
  | case1 => simp [utf8Decode, ha]
  | case2 b hb => simp [utf8Decode, ha, hb]
  | case3 b hb =>
    by_cases h2 : 0xC2 ≤ b ∧ b ≤ 0xDF <;> simp [utf8Decode, hb, h2, hca]
  | case4 b b1 hb ih =>
    simp only [List.cons_append, List.nil_append] at ih ⊢
    rw [utf8Decode.eq_4 b b1 a, utf8Decode.eq_3 b b1]
    simp only [if_pos hb]
    rw [ih]
    cases utf8Decode [b1] <;> rfl
  | case5 b b1 hb h2 hc => simp [utf8Decode, ha, hb, h2, hc]
  | case6 b b1 hb h2 hc => simp [utf8Decode, hb, h2, hc]
  | case7 b b1 hb h2 =>
    by_cases h3 : 0xE0 ≤ b ∧ b ≤ 0xEF <;> simp [utf8Decode, hb, h2, h3, hca]
  | case8 b b1 b2 hb ih =>
    simp only [List.cons_append, List.nil_append] at ih ⊢
    rw [utf8Decode.eq_5 b b1 b2 a [], utf8Decode.eq_4 b b1 b2]
    simp only [if_pos hb]
    rw [ih]
    cases utf8Decode [b1, b2] <;> rfl
  | case9 b b1 b2 hb h2 hc ih =>
    simp only [List.cons_append, List.nil_append] at ih ⊢
    rw [utf8Decode.eq_5 b b1 b2 a [], utf8Decode.eq_4 b b1 b2]
    simp only [if_neg hb, if_pos h2, if_pos hc]
    rw [ih]
    cases utf8Decode [b2] <;> rfl
  | case10 b b1 b2 hb h2 hc => simp [utf8Decode, hb, h2, hc]
  | case11 b b1 b2 hb h2 h3 hg => simp [utf8Decode, ha, hb, h2, h3, hg]
  | case12 b b1 b2 hb h2 h3 hg => simp [utf8Decode, hb, h2, h3, hg]
  | case13 b b1 b2 hb h2 h3 =>
    by_cases h4 : 0xF0 ≤ b ∧ b ≤ 0xF4 <;> simp [utf8Decode, hb, h2, h3, h4, hca]
  | case14 b b1 b2 b3 rest hb ih =>
    simp only [List.cons_append] at ih ⊢
    rw [utf8Decode.eq_5 b b1 b2 b3 (rest ++ [a]), utf8Decode.eq_5 b b1 b2 b3 rest]
    simp only [if_pos hb]
    rw [ih]
    cases utf8Decode (b1 :: b2 :: b3 :: rest) <;> rfl
  | case15 b b1 b2 b3 rest hb h2 hc ih =>
    simp only [List.cons_append] at ih ⊢
    rw [utf8Decode.eq_5 b b1 b2 b3 (rest ++ [a]), utf8Decode.eq_5 b b1 b2 b3 rest]
    simp only [if_neg hb, if_pos h2, if_pos hc]
    rw [ih]
    cases utf8Decode (b2 :: b3 :: rest) <;> rfl
  | case16 b b1 b2 b3 rest hb h2 hc => simp [utf8Decode, hb, h2, hc]
  | case17 b b1 b2 b3 rest hb h2 h3 hg ih =>
    simp only [List.cons_append] at ih ⊢
    rw [utf8Decode.eq_5 b b1 b2 b3 (rest ++ [a]), utf8Decode.eq_5 b b1 b2 b3 rest]
    simp only [if_neg hb, if_neg h2, if_pos h3, if_pos hg]
    rw [ih]
    cases utf8Decode (b3 :: rest) <;> rfl
  | case18 b b1 b2 b3 rest hb h2 h3 hg => simp [utf8Decode, hb, h2, h3, hg]
  | case19 b b1 b2 b3 rest hb h2 h3 h4 hg ih =>
    simp only [List.cons_append]
    rw [utf8Decode.eq_5 b b1 b2 b3 (rest ++ [a]), utf8Decode.eq_5 b b1 b2 b3 rest]
    simp only [if_neg hb, if_neg h2, if_neg h3, if_pos h4, if_pos hg]
    rw [ih]
    cases utf8Decode rest <;> rfl
  | case20 b b1 b2 b3 rest hb h2 h3 h4 hg => simp [utf8Decode, hb, h2, h3, h4, hg]
  | case21 b b1 b2 b3 rest hb h2 h3 h4 => simp [utf8Decode, hb, h2, h3, h4]

theorem utf8Decode_low_mem (bs : List Nat) :
    ∀ cs, utf8Decode bs = some cs → ∀ c ∈ cs, c < 0x80 → c ∈ bs := by
  induction bs using utf8Decode.induct with
  | case1 =>
    intro cs h
    rw [utf8Decode.eq_1] at h
    cases Option.some.inj h
    simp
  | case2 b hb =>
    intro cs h
    rw [utf8Decode.eq_2, if_pos hb] at h
    cases Option.some.inj h
    exact fun c hc _ => hc
  | case3 b hb =>
    intro cs h
    rw [utf8Decode.eq_2, if_neg hb] at h
    exact Option.noConfusion h
  | case4 b b1 hb ih =>
    intro cs h
    rw [utf8Decode.eq_3, if_pos hb] at h
    cases hr : utf8Decode [b1] with
    | none => rw [hr] at h; exact Option.noConfusion h
    | some cs2 =>
      rw [hr, Option.map_some'] at h
      cases Option.some.inj h
      intro c hc hlow
      rcases List.mem_cons.mp hc with hc | hc
      · simp [hc]
      · exact List.mem_cons_of_mem b (ih cs2 hr c hc hlow)
  | case5 b b1 hb h2 hc =>
    intro cs h
    rw [utf8Decode.eq_3, if_neg hb, if_pos h2, if_pos hc] at h
    cases Option.some.inj h
    intro c hc2 hlow
    rw [List.mem_singleton] at hc2
    subst hc2
    have := cp2_big b b1 h2.1 hc
    omega
  | case6 b b1 hb h2 hc =>
    intro cs h
    rw [utf8Decode.eq_3, if_neg hb, if_pos h2, if_neg hc] at h
    exact Option.noConfusion h
  | case7 b b1 hb h2 =>
    intro cs h
    rw [utf8Decode.eq_3, if_neg hb, if_neg h2] at h
    exact Option.noConfusion h
  | case8 b b1 b2 hb ih =>
    intro cs h
    rw [utf8Decode.eq_4, if_pos hb] at h
    cases hr : utf8Decode [b1, b2] with
    | none => rw [hr] at h; exact Option.noConfusion h
    | some cs2 =>
      rw [hr, Option.map_some'] at h
      cases Option.some.inj h
      intro c hc hlow
      rcases List.mem_cons.mp hc with hc | hc
      · simp [hc]
      · exact List.mem_cons_of_mem b (ih cs2 hr c hc hlow)
  | case9 b b1 b2 hb h2 hc ih =>
    intro cs h
    rw [utf8Decode.eq_4, if_neg hb, if_pos h2, if_pos hc] at h
    cases hr : utf8Decode [b2] with
    | none => rw [hr] at h; exact Option.noConfusion h
    | some cs2 =>
      rw [hr, Option.map_some'] at h
      cases Option.some.inj h
      intro c hc2 hlow
      rcases List.mem_cons.mp hc2 with hc2 | hc2
      · have := cp2_big b b1 h2.1 hc
        omega
      · exact List.mem_cons_of_mem b (List.mem_cons_of_mem b1 (ih cs2 hr c hc2 hlow))
  | case10 b b1 b2 hb h2 hc =>
    intro cs h
    rw [utf8Decode.eq_4, if_neg hb, if_pos h2, if_neg hc] at h
    exact Option.noConfusion h
  | case11 b b1 b2 hb h2 h3 hg =>
    intro cs h
    rw [utf8Decode.eq_4, if_neg hb, if_neg h2, if_pos h3, if_pos hg] at h
    cases Option.some.inj h
    intro c hc2 hlow
    rw [List.mem_singleton] at hc2
    subst hc2
    have := cp3_big b b1 b2 h3.1 hg
    omega
  | case12 b b1 b2 hb h2 h3 hg =>
    intro cs h
    rw [utf8Decode.eq_4, if_neg hb, if_neg h2, if_pos h3, if_neg hg] at h
    exact Option.noConfusion h
  | case13 b b1 b2 hb h2 h3 =>
    intro cs h
    rw [utf8Decode.eq_4, if_neg hb, if_neg h2, if_neg h3] at h
    exact Option.noConfusion h
  | case14 b b1 b2 b3 rest hb ih =>
    intro cs h
    rw [utf8Decode.eq_5, if_pos hb] at h
    cases hr : utf8Decode (b1 :: b2 :: b3 :: rest) with
    | none => rw [hr] at h; exact Option.noConfusion h
    | some cs2 =>
      rw [hr, Option.map_some'] at h
      cases Option.some.inj h
      intro c hc hlow
      rcases List.mem_cons.mp hc with hc | hc
      · simp [hc]
      · exact List.mem_cons_of_mem b (ih cs2 hr c hc hlow)
  | case15 b b1 b2 b3 rest hb h2 hc ih =>
    intro cs h
    rw [utf8Decode.eq_5, if_neg hb, if_pos h2, if_pos hc] at h
    cases hr : utf8Decode (b2 :: b3 :: rest) with
    | none => rw [hr] at h; exact Option.noConfusion h
    | some cs2 =>
      rw [hr, Option.map_some'] at h
      cases Option.some.inj h
      intro c hc2 hlow
      rcases List.mem_cons.mp hc2 with hc2 | hc2
      · have := cp2_big b b1 h2.1 hc
        omega
      · exact List.mem_cons_of_mem b (List.mem_cons_of_mem b1 (ih cs2 hr c hc2 hlow))
  | case16 b b1 b2 b3 rest hb h2 hc =>
    intro cs h
    rw [utf8Decode.eq_5, if_neg hb, if_pos h2, if_neg hc] at h
    exact Option.noConfusion h
  | case17 b b1 b2 b3 rest hb h2 h3 hg ih =>
    intro cs h
    rw [utf8Decode.eq_5, if_neg hb, if_neg h2, if_pos h3, if_pos hg] at h
    cases hr : utf8Decode (b3 :: rest) with
    | none => rw [hr] at h; exact Option.noConfusion h
    | some cs2 =>
      rw [hr, Option.map_some'] at h
      cases Option.some.inj h
      intro c hc2 hlow
      rcases List.mem_cons.mp hc2 with hc2 | hc2
      · have := cp3_big b b1 b2 h3.1 hg
        omega
      · exact List.mem_cons_of_mem b (List.mem_cons_of_mem b1
          (List.mem_cons_of_mem b2 (ih cs2 hr c hc2 hlow)))
  | case18 b b1 b2 b3 rest hb h2 h3 hg =>
    intro cs h
    rw [utf8Decode.eq_5, if_neg hb, if_neg h2, if_pos h3, if_neg hg] at h
    exact Option.noConfusion h
  | case19 b b1 b2 b3 rest hb h2 h3 h4 hg ih =>
    intro cs h
    rw [utf8Decode.eq_5, if_neg hb, if_neg h2, if_neg h3, if_pos h4, if_pos hg] at h
    cases hr : utf8Decode rest with
    | none => rw [hr] at h; exact Option.noConfusion h
    | some cs2 =>
      rw [hr, Option.map_some'] at h
      cases Option.some.inj h
      intro c hc2 hlow
      rcases List.mem_cons.mp hc2 with hc2 | hc2
      · have := cp4_big b b1 b2 b3 h4.1 hg
        omega
      · exact List.mem_cons_of_mem b (List.mem_cons_of_mem b1 (List.mem_cons_of_mem b2
          (List.mem_cons_of_mem b3 (ih cs2 hr c hc2 hlow))))
  | case20 b b1 b2 b3 rest hb h2 h3 h4 hg =>
    intro cs h
    rw [utf8Decode.eq_5, if_neg hb, if_neg h2, if_neg h3, if_pos h4, if_neg hg] at h
    exact Option.noConfusion h
  | case21 b b1 b2 b3 rest hb h2 h3 h4 =>
    intro cs h
    rw [utf8Decode.eq_5, if_neg hb, if_neg h2, if_neg h3, if_neg h4] at h
    exact Option.noConfusion h
theorem wordRunsAux_append_nonword (isW : Nat → Bool) (a : Nat)
    (ha : isW a = false) (xs : List Nat) : ∀ cur,
    wordRunsAux isW (xs ++ [a]) cur = wordRunsAux isW xs cur := by
  induction xs with
  | nil =>
    intro cur
    by_cases hc : cur = [] <;> simp [wordRunsAux, ha, hc]
  | cons c xs ih =>
    intro cur
    by_cases hw : isW c <;> by_cases hc : cur = [] <;>
      simp [wordRunsAux, hw, hc, ih]

theorem wordRuns_append_nonword (isW : Nat → Bool) (a : Nat)
    (ha : isW a = false) (xs : List Nat) :
    wordRuns isW (xs ++ [a]) = wordRuns isW xs :=
  wordRunsAux_append_nonword isW a ha xs []

theorem flatten_singletons (ls : List (List Nat)) :
    (ls.map (fun l => [l])).flatten = ls := by
  induction ls with
  | nil => rfl
  | cons l ls ih => simp [ih]

theorem countFromLines_cons (isW : Nat → Bool) (option : CountOption)
    (lb : List Nat) (rest : List (List Nat)) (t : FreqTable) :
    countFromLines isW option (lb :: rest) t =
      match utf8Decode lb with
      | none => none
      | some line => countFromLines isW option rest (processLine isW option line t) := by
  rw [countFromLines.eq_def]

theorem countChar_linesAux_append (isW : Nat → Bool) (bs : List Nat) :
    ∀ acc t, (bs = [] → acc.head? ≠ some 13) →
      (bs ≠ [] → bs.getLast? ≠ some 13) →
      countFromLines isW CountOption.Char (linesAux (bs ++ [10]) acc) t =
        countFromLines isW CountOption.Char (linesAux bs acc) t := by
  induction bs with
  | nil =>
    intro acc t h1 _
    rw [List.nil_append]
    by_cases hacc : acc = []
    · subst hacc
      rfl
    · have hd := dropCR_eq_of_head acc (h1 rfl)
      simp [linesAux, hacc, hd]
  | cons b bs ih =>
    intro acc t h1 h2
    by_cases hb : b = 10
    · subst hb
      have e1 : linesAux ((10 : Nat) :: (bs ++ [10])) acc =
          (dropCR acc).reverse :: linesAux (bs ++ [10]) [] := by
        simp [linesAux]
      have e2 : linesAux ((10 : Nat) :: bs) acc =
          (dropCR acc).reverse :: linesAux bs [] := by
        simp [linesAux]
      rw [List.cons_append, e1, e2]
      cases hdec : utf8Decode ((dropCR acc).reverse) with
      | none => rw [countFromLines_cons, countFromLines_cons, hdec]
      | some line =>
        rw [countFromLines_cons, countFromLines_cons, hdec]
        show countFromLines isW CountOption.Char (linesAux (bs ++ [10]) [])
              (processLine isW CountOption.Char line t) =
            countFromLines isW CountOption.Char (linesAux bs [])
              (processLine isW CountOption.Char line t)
        refine ih [] (processLine isW CountOption.Char line t) (fun _ => by simp) ?_
        intro hne
        have h3 := h2 (List.cons_ne_nil 10 bs)
        cases bs with
        | nil => exact absurd rfl hne
        | cons c bs2 => rw [List.getLast?_cons_cons] at h3; exact h3
    · have e1 : linesAux (b :: (bs ++ [10])) acc = linesAux (bs ++ [10]) (b :: acc) := by
        simp [linesAux, hb]
      have e2 : linesAux (b :: bs) acc = linesAux bs (b :: acc) := by
        simp [linesAux, hb]
      rw [List.cons_append, e1, e2]
      refine ih (b :: acc) t ?_ ?_
      · intro hbs
        subst hbs
        have h3 := h2 (List.cons_ne_nil b [])
        intro heq
        apply h3
        rw [List.head?_cons] at heq
        rw [show ([b] : List Nat).getLast? = some b from rfl]
        exact heq
      · intro hne
        have h3 := h2 (List.cons_ne_nil b bs)
        cases bs with
        | nil => exact absurd rfl hne
        | cons c bs2 => rw [List.getLast?_cons_cons] at h3; exact h3

theorem countWord_linesAux_append (isW : Nat → Bool) (hw : isW 13 = false)
    (bs : List Nat) : ∀ acc t,
    countFromLines isW CountOption.Word (linesAux (bs ++ [10]) acc) t =
      countFromLines isW CountOption.Word (linesAux bs acc) t := by
  induction bs with
  | nil =>
    intro acc t
    rw [List.nil_append]
    by_cases hacc : acc = []
    · subst hacc
      rfl
    · by_cases hh : acc.head? = some 13
      · obtain ⟨a0, acc2, rfl⟩ : ∃ a0 acc2, acc = a0 :: acc2 := by
          cases acc with
          | nil => exact absurd rfl hacc
          | cons a0 acc2 => exact ⟨a0, acc2, rfl⟩
        rw [List.head?_cons] at hh
        have ha0 : a0 = 13 := Option.some.inj hh
        subst ha0
        have e1 : linesAux [10] ((13 : Nat) :: acc2) = [acc2.reverse] := by
          simp [linesAux, dropCR]
        have e2 : linesAux [] ((13 : Nat) :: acc2) = [(13 :: acc2).reverse] := by
          simp [linesAux]
        rw [e1, e2, List.reverse_cons]
        rw [countFromLines_cons, countFromLines_cons,
          utf8Decode_append_low 13 (by omega) acc2.reverse]
        cases hdec : utf8Decode acc2.reverse with
        | none => rfl
        | some cs =>
          rw [Option.map_some']
          show countFromLines isW CountOption.Word []
                (processLine isW CountOption.Word cs t) =
              countFromLines isW CountOption.Word []
                (processLine isW CountOption.Word (cs ++ [13]) t)
          have hpl : processLine isW CountOption.Word (cs ++ [13]) t =
              processLine isW CountOption.Word cs t := by
            simp only [processLine, wordRuns_append_nonword isW 13 hw cs]
          rw [hpl]
      · have hd := dropCR_eq_of_head acc hh
        simp [linesAux, hacc, hd]
  | cons b bs ih =>
    intro acc t
    by_cases hb : b = 10
    · subst hb
      have e1 : linesAux ((10 : Nat) :: (bs ++ [10])) acc =
          (dropCR acc).reverse :: linesAux (bs ++ [10]) [] := by
        simp [linesAux]
      have e2 : linesAux ((10 : Nat) :: bs) acc =
          (dropCR acc).reverse :: linesAux bs [] := by
        simp [linesAux]
      rw [List.cons_append, e1, e2]
      cases hdec : utf8Decode ((dropCR acc).reverse) with
      | none => rw [countFromLines_cons, countFromLines_cons, hdec]
      | some line =>
        rw [countFromLines_cons, countFromLines_cons, hdec]
        show countFromLines isW CountOption.Word (linesAux (bs ++ [10]) [])
              (processLine isW CountOption.Word line t) =
            countFromLines isW CountOption.Word (linesAux bs [])
              (processLine isW CountOption.Word line t)
        exact ih [] (processLine isW CountOption.Word line t)
    · have e1 : linesAux (b :: (bs ++ [10])) acc = linesAux (bs ++ [10]) (b :: acc) := by
        simp [linesAux, hb]
      have e2 : linesAux (b :: bs) acc = linesAux bs (b :: acc) := by
        simp [linesAux, hb]
      rw [List.cons_append, e1, e2]
      exact ih (b :: acc) t

/-- C4, counterexample to the claim as stated: the input `"a\r"` (bytes
`[97, 13]`) has no line terminator, so `BufRead::lines` does not strip its
trailing `\r`; in Line mode the resulting table's only key is `"a\r"`,
which ends in `\r` — contradicting the claim that in Line mode no key ever
contains a trailing `\r`. -/
theorem claim_C4_counterexample :
    count asciiWordChar [97, 13] CountOption.Line = some [([97, 13], 1)] ∧
      List.getLast? [97, 13] = some 13 :=
  ⟨by decide, by decide⟩

/-- C4 (amended): `count` splits on `\n` and strips the terminator together
with a `\r` directly preceding it.  For a text whose lines contain no `\n`
and do not end in `\r`, terminating every line with `\n` versus `\r\n`
yields the identical table in every mode.  No key ever contains `\n`
(shown here for Line mode, whose keys are whole lines); a key may retain a
trailing `\r` only when the final line is unterminated. -/
theorem claim_C4_amended (isW : Nat → Bool) (contents : List (List Nat))
    (input : List Nat) (t : FreqTable) (option : CountOption)
    (h10 : ∀ l ∈ contents, 10 ∉ l)
    (h13 : ∀ l ∈ contents, l.getLast? ≠ some 13)
    (hL : count isW input CountOption.Line = some t) :
    count isW (joinWith [10] contents) option =
        count isW (joinWith [13, 10] contents) option ∧
      ∀ p ∈ t, 10 ∉ p.1 := by
  constructor
  · rw [count, count, rustLines_joinWith_nl contents h10 h13,
      rustLines_joinWith_crnl contents h10]
  · obtain ⟨us, hu, ht⟩ := count_some_units isW input CountOption.Line t hL
    subst ht
    intro p hp
    rcases mem_applyUnits_key us [] p hp with hk | hk
    · rw [inputUnits] at hu
      cases hdl : decodeLines (rustLines input) with
      | none => rw [hdl] at hu; exact absurd hu (by simp)
      | some ls =>
        rw [hdl, Option.map_some'] at hu
        have h2 : (ls.map (lineUnits isW CountOption.Line)).flatten = ls := by
          have h3 : ls.map (lineUnits isW CountOption.Line) = ls.map (fun l => [l]) := rfl
          rw [h3, flatten_singletons]
        have hus : us = ls := by
          rw [← Option.some.inj hu]
          exact h2
        subst hus
        obtain ⟨lb, hlb, hdec⟩ := decodeLines_mem (rustLines input) us p.1 hdl hk
        intro hc
        exact linesAux_no10 input [] (by simp) lb hlb
          (utf8Decode_low_mem lb p.1 hdec 10 hc (by omega))
    · simp at hk

theorem claim_C4_witness :
    count asciiWordChar (joinWith [10] [[97]]) CountOption.Word =
        count asciiWordChar (joinWith [13, 10] [[97]]) CountOption.Word ∧
      10 ∉ ([97] : Key) := by
  have h := claim_C4_amended asciiWordChar [[97]] [97] [([97], 1)]
    CountOption.Word (by decide) (by decide) (by decide)
  exact ⟨h.1, h.2 ([97], 1) (by decide)⟩

/-- C10, counterexample to the claim as stated: appending a trailing `\n`
does change the Char-mode result when the input ends in `\r`, because the
appended terminator causes the `\r` to be stripped: on bytes `[97, 13]`
(`"a\r"`) Char mode counts the `\r`, on `[97, 13, 10]` it does not. -/
theorem claim_C10_counterexample :
    count asciiWordChar ([97, 13] ++ [10]) CountOption.Char ≠
      count asciiWordChar [97, 13] CountOption.Char := by decide

/-- C10 (amended): a final input segment not followed by a terminator is
still processed as a line — `"a\nb"` in Line mode yields counts for both
`"a"` and `"b"`.  Appending a trailing `\n` leaves the result unchanged in
Char mode provided the input does not end in `\r` (counterexample `"a\r"`),
and in Word mode for every input, provided `\r` is not a word-class
character (true of the regex `\w`). -/
theorem claim_C10_amended (isW : Nat → Bool) (inputC inputW : List Nat)
    (hcr : inputC.getLast? ≠ some 13) (hw : isW 13 = false) :
    count isW [97, 10, 98] CountOption.Line = some [([97], 1), ([98], 1)] ∧
      count isW (inputC ++ [10]) CountOption.Char =
        count isW inputC CountOption.Char ∧
      count isW (inputW ++ [10]) CountOption.Word =
        count isW inputW CountOption.Word := by
  refine ⟨rfl, ?_, ?_⟩
  · rw [count, count, rustLines, rustLines]
    exact countChar_linesAux_append isW inputC [] []
      (fun _ => by simp) (fun _ => hcr)
  · rw [count, count, rustLines, rustLines]
    exact countWord_linesAux_append isW hw inputW [] []

theorem claim_C10_witness :
    count asciiWordChar ([97] ++ [10]) CountOption.Char =
        count asciiWordChar [97] CountOption.Char ∧
      count asciiWordChar ([97] ++ [10]) CountOption.Word =
        count asciiWordChar [97] CountOption.Word := by
  have h := claim_C10_amended asciiWordChar [97] [97] (by decide) (by decide)
  exact ⟨h.2.1, h.2.2⟩
